import Mathlib

/-!
Verification of the HttpAcceptParser repository (HttpAcceptParser.cpp / .h).

The program is a pure function: given the value of an HTTP Accept header and
an ordered list of available content types, it selects one content type.
We embed it shallowly: C++ strings become lists of characters, the float
qvalue becomes a rational number, and each C++ helper becomes a Lean
function of the same name.  `std::stof` is modelled on its decimal grammar
(sign, digits, fraction, exponent, trailing garbage ignored); the
hexadecimal, infinity and NaN forms it also accepts have no rational
counterpart and are outside the model.  `std::sort` is modelled by
insertion sort with the program's comparator (the comparator is not a
strict weak order, see the development below, so the C++ sort is not
uniquely pinned down; insertion sort is the deterministic choice made
here).
-/

namespace HttpAcceptParser

/-- Strings of the model: lists of characters. -/
abbrev Str := List Char

/-- Characters stripped by `trim` in the source: " \t\n\r\f\v". -/
def isTrimChar (c : Char) : Bool :=
  c == ' ' || c == '\t' || c == '\n' || c == '\r' || c == Char.ofNat 12 || c == Char.ofNat 11

/-- Model of `ltrim`: strip trim-characters from the beginning. -/
def ltrim (s : Str) : Str := s.dropWhile isTrimChar

/-- Model of `rtrim`: strip trim-characters from the end. -/
def rtrim (s : Str) : Str := (s.reverse.dropWhile isTrimChar).reverse

/-- Model of `trim`: strip whitespace from both ends. -/
def trim (s : Str) : Str := ltrim (rtrim s)

/-- Model of the ASCII lowering done by `std::tolower` per character. -/
def lowerChar (c : Char) : Char :=
  if 'A' ≤ c ∧ c ≤ 'Z' then Char.ofNat (c.toNat + 32) else c

/-- Model of `stringToLower`. -/
def stringToLower (s : Str) : Str := s.map lowerChar

/-- Split a string at every occurrence of a delimiter; `n` delimiters give
`n + 1` (possibly empty) parts. -/
def splitOnChar (c : Char) : Str → List Str
  | [] => [[]]
  | x :: xs =>
    if x = c then [] :: splitOnChar c xs
    else
      match splitOnChar c xs with
      | p :: ps => (x :: p) :: ps
      | [] => [[x]]

/-- Model of repeated `std::getline(stream, tok, c)`: like `splitOnChar`,
except that the final part is dropped when it is empty (a trailing
delimiter or an empty input yields no final token, because the last
`getline` call extracts nothing and fails). -/
def getlineSplit (c : Char) (s : Str) : List Str :=
  if (splitOnChar c s).getLast? = some [] then (splitOnChar c s).dropLast
  else splitOnChar c s

/-- Split a string at the first occurrence of a character (`find` in the
source); `none` when the character does not occur. -/
def splitFirst (c : Char) : Str → Option (Str × Str)
  | [] => none
  | x :: xs =>
    if x = c then some ([], xs)
    else (splitFirst c xs).map (fun p => (x :: p.1, p.2))

/-- Numeric value of a list of decimal digit characters. -/
def digitsVal (ds : Str) : ℕ := ds.foldl (fun a c => a * 10 + (c.toNat - 48)) 0

/-- Exponent part of the `std::stof` decimal grammar: optional sign then
digits; a malformed exponent (no digit) yields 0, since `strtof` then
backs off to the mantissa alone (`digitsVal [] = 0`). -/
def expVal (r : Str) : ℤ :=
  match r with
  | '-' :: r2 => -(digitsVal (r2.span Char.isDigit).1 : ℤ)
  | '+' :: r2 => (digitsVal (r2.span Char.isDigit).1 : ℤ)
  | _ => (digitsVal (r.span Char.isDigit).1 : ℤ)

/-- Model of `stringToFloat` / `std::stof` on the decimal grammar: optional
sign, digits with optional fraction (at least one digit overall), optional
exponent, trailing garbage ignored; `none` when no initial portion
converts.  The value sign * mantissa * 10^exponent is assembled as one
`mkRat` over integer arithmetic (same rational, and kernel-computable).
Hexadecimal, infinity and NaN inputs, which `std::stof` also accepts, are
outside this rational model, as is the out-of-float-range exception. -/
def stofQ (s : Str) : Option ℚ :=
  let sgnRest : ℤ × Str :=
    match s with
    | '-' :: r => (-1, r)
    | '+' :: r => (1, r)
    | _ => (1, s)
  let ip := sgnRest.2.span Char.isDigit
  let fp : Str × Str :=
    match ip.2 with
    | '.' :: r => r.span Char.isDigit
    | _ => ([], ip.2)
  if ip.1 = [] ∧ fp.1 = [] then none
  else
    let ex : ℤ :=
      match fp.2 with
      | 'e' :: r => expVal r
      | 'E' :: r => expVal r
      | _ => 0
    let mant : ℤ := sgnRest.1 * (digitsVal (ip.1 ++ fp.1) : ℤ)
    if 0 ≤ ex then some (mkRat (mant * 10 ^ ex.toNat) (10 ^ fp.1.length))
    else some (mkRat mant (10 ^ (fp.1.length + (-ex).toNat)))

/-- Model of the quality normalization of lines 84-95 of the source:
out-of-range values become 1, exact 0 becomes the rejection sentinel -1,
anything else is kept.  The float constant `0.001f` is modelled as the
rational 1/1000, written `mkRat 1 1000` so that it kernel-computes. -/
def normalizeQ (q : ℚ) : ℚ :=
  if (q < mkRat 1 1000 ∧ q ≠ 0) ∨ q > 1 then 1
  else if q = 0 then -1
  else q

/-- Model of the `ParsedContentType` struct of HttpAcceptParser.h (float
`qvalue` as ℚ, int `order` as ℕ; orders are only ever 0,1,2,...). -/
structure ParsedContentType where
  range : Str
  type : Str
  subtype : Str
  qvalue : ℚ
  order : ℕ
deriving DecidableEq

/-- The wildcard string "*". -/
def star : Str := ['*']

/-- Parameter loop of `parse` (lines 58-97): each remaining
semicolon-segment must contain '=', and a `q`/`Q` key must carry a
parseable float, which is then normalized; other keys are ignored.
Returns `none` when the token is to be discarded. -/
def foldParams : List Str → ParsedContentType → Option ParsedContentType
  | [], ct => some ct
  | p :: ps, ct =>
    match splitFirst '=' (trim p) with
    | none => none
    | some kv =>
      if trim kv.1 = ['q'] ∨ trim kv.1 = ['Q'] then
        match stofQ (trim kv.2) with
        | none => none
        | some raw => foldParams ps { ct with qvalue := normalizeQ raw }
      else foldParams ps ct

/-- One iteration of the comma-token loop of `parse` (lines 24-104): trim
the token, split it on ';', parse the first segment as the media range
(lowercased, must contain '/', a wildcard type must carry a wildcard
subtype), then process the remaining segments as parameters.  A token that
is empty after trimming yields no segments at all, so the media-range
branch never runs and the entry survives with empty range, type and
subtype. -/
def parseToken (tok : Str) (order : ℕ) : Option ParsedContentType :=
  match getlineSplit ';' (trim tok) with
  | [] => some { range := trim tok, type := [], subtype := [], qvalue := 1, order := order }
  | p0 :: ps =>
    match splitFirst '/' (stringToLower (trim p0)) with
    | none => none
    | some ts =>
      if ts.1 = star ∧ ts.2 ≠ star then none
      else
        foldParams ps
          { range := stringToLower (trim p0), type := ts.1, subtype := ts.2,
            qvalue := 1, order := order }

/-- The comma-token loop of `parse`: each token is numbered by its position
among all tokens (survivors and discards alike) and the surviving entries
are collected in order. -/
def collectTokens : List Str → ℕ → List ParsedContentType
  | [], _ => []
  | t :: ts, n =>
    match parseToken t n with
    | some ct => ct :: collectTokens ts (n + 1)
    | none => collectTokens ts (n + 1)

/-- The accepted content types produced from a (non-empty) header value. -/
def parseAccepted (acceptValue : Str) : List ParsedContentType :=
  collectTokens (getlineSplit ',' acceptValue) 0

/-- Model of `compareContentTypes` (lines 150-192): quality first, then
wildcard-type, then wildcard-subtype, then original order. -/
def compareContentTypes (a b : ParsedContentType) : Bool :=
  if a.qvalue ≠ b.qvalue then
    decide (a.qvalue > b.qvalue)
  else if a.type ≠ b.type then
    if a.type = star then true
    else if b.type = star then false
    else decide (a.order < b.order)
  else if a.subtype ≠ b.subtype then
    if a.subtype = star then true
    else if b.subtype = star then false
    else decide (a.order < b.order)
  else decide (a.order < b.order)

/-- Insert an element into a list sorted by `compareContentTypes`. -/
def insertCT (x : ParsedContentType) : List ParsedContentType → List ParsedContentType
  | [] => [x]
  | h :: t => if compareContentTypes x h then x :: h :: t else h :: insertCT x t

/-- Model of `std::sort` with `compareContentTypes` as insertion sort (the
comparator is not a strict weak order, so the C++ sort is not uniquely
determined; this fixes a deterministic refinement). -/
def sortCT : List ParsedContentType → List ParsedContentType
  | [] => []
  | x :: xs => insertCT x (sortCT xs)

/-- One step of the matching loop of `getPreferableContentType`
(lines 212-226), on the state (current qvalue, matchFound). -/
def scanStep (cty csub : Str) (st : ℚ × Bool) (a : ParsedContentType) : ℚ × Bool :=
  if a.type = cty ∧ (a.subtype = csub ∨ (a.subtype = star ∧ st.2 = false)) then
    (a.qvalue, true)
  else if a.type = star ∧ st.2 = false then
    (a.qvalue, st.2)
  else st

/-- Effective quality of a candidate with type `cty` and subtype `csub`
against the (sorted) accepted list: the matching loop starting from
qvalue 0 and matchFound false. -/
def scanAccepted (accepted : List ParsedContentType) (cty csub : Str) : ℚ :=
  (accepted.foldl (scanStep cty csub) (0, false)).1

/-- Candidate-building loop of `getPreferableContentType` (lines 198-229):
each available entry is trimmed and lowercased; entries without '/' are
skipped (and do not advance the candidate order counter); the rest become
candidates whose qvalue is the result of the matching loop. -/
def mkCandidates (accepted : List ParsedContentType) : List Str → ℕ → List ParsedContentType
  | [], _ => []
  | s :: rest, n =>
    match splitFirst '/' (stringToLower (trim s)) with
    | none => mkCandidates accepted rest n
    | some ts =>
      { range := stringToLower (trim s), type := ts.1, subtype := ts.2,
        qvalue := scanAccepted accepted ts.1 ts.2, order := n }
        :: mkCandidates accepted rest (n + 1)

/-- Model of `getPreferableContentType` (lines 194-246): sort the
candidates and return the first one's range; when there is no candidate,
fall back to the first available entry, or the empty string. -/
def getPreferableContentType (accepted : List ParsedContentType)
    (available : List Str) : Str :=
  match sortCT (mkCandidates accepted available 0) with
  | c :: _ => c.range
  | [] =>
    match available with
    | a :: _ => a
    | [] => []

/-- Model of `HttpAcceptParser::parse` (lines 8-111): empty header falls
back to the first available entry; otherwise the comma tokens are parsed,
the survivors sorted, and the negotiation performed. -/
def parse (acceptValue : Str) (available : List Str) : Str :=
  if acceptValue = [] then
    match available with
    | a :: _ => a
    | [] => []
  else
    getPreferableContentType (sortCT (parseAccepted acceptValue)) available

/-! ### Spec-side definitions (for refinement comparisons)

These definitions follow the wording of the natural-language specification
and of the claims, to be compared with the source-derived definitions
above. -/

/-- Spec-side quality normalization, in the order the spec states it:
exact 0 first, then the out-of-range clamp, else unchanged. -/
def qNormSpec (raw : ℚ) : ℚ :=
  if raw = 0 then -1
  else if raw < 1/1000 ∨ raw > 1 then 1
  else raw

/-- Spec-side comparator, clause by clause as the spec states it: higher
quality first; else wildcard type first, tie broken by order; else
wildcard subtype first, tie broken by order; else order. -/
def compareSpec (a b : ParsedContentType) : Bool :=
  if a.qvalue > b.qvalue then true
  else if b.qvalue > a.qvalue then false
  else if a.type ≠ b.type then
    if a.type = star then true
    else if b.type = star then false
    else decide (a.order < b.order)
  else if a.subtype ≠ b.subtype then
    if a.subtype = star then true
    else if b.subtype = star then false
    else decide (a.order < b.order)
  else decide (a.order < b.order)

/-- An accepted range matching the candidate exactly (same type, same
subtype). -/
def exactP (cty csub : Str) (a : ParsedContentType) : Prop :=
  a.type = cty ∧ a.subtype = csub

/-- An accepted range matching the candidate through a wildcard subtype
(same type, subtype "*", and the candidate's subtype is not itself "*",
in which case the match would be exact). -/
def wsubP (cty csub : Str) (a : ParsedContentType) : Prop :=
  a.type = cty ∧ a.subtype = star ∧ csub ≠ star

/-- An accepted range matching the candidate through a full wildcard
(type "*", and the candidate's type is not itself "*", in which case the
match would go through the type-equality branch). -/
def starP (cty : Str) (a : ParsedContentType) : Prop :=
  a.type = star ∧ cty ≠ star

instance (cty csub : Str) : DecidablePred (exactP cty csub) := fun a => by
  unfold exactP; infer_instance

instance (cty csub : Str) : DecidablePred (wsubP cty csub) := fun a => by
  unfold wsubP; infer_instance

instance (cty : Str) : DecidablePred (starP cty) := fun a => by
  unfold starP; infer_instance

/-- Quality of the last element of a list, with a default. -/
def qOfLast (l : List ParsedContentType) (q : ℚ) : ℚ :=
  match l.getLast? with
  | some e => e.qvalue
  | none => q

/-- Quality of the first element of a list, with a default. -/
def qOfHead (l : List ParsedContentType) (q : ℚ) : ℚ :=
  match l.head? with
  | some e => e.qvalue
  | none => q

/-- Spec-side effective quality of a candidate, as claim C1 states it:
the last exact match wins unconditionally; otherwise the first
wildcard-subtype match; otherwise the last full-wildcard match; otherwise
the initial 0. -/
def effectiveQualitySpec (acc : List ParsedContentType) (cty csub : Str) : ℚ :=
  qOfLast (acc.filter fun a => decide (exactP cty csub a))
    (qOfHead (acc.filter fun a => decide (wsubP cty csub a))
      (qOfLast (acc.filter fun a => decide (starP cty a)) 0))

/-- The set of qualities the spec's invariant allows for accepted
ranges: the rejection sentinel or the closed interval [1/1000, 1]. -/
def specQSet (q : ℚ) : Prop :=
  q = -1 ∨ (1/1000 ≤ q ∧ q ≤ 1)

instance : DecidablePred specQSet := fun q => by
  unfold specQSet; infer_instance

/-! ### Basic lemmas about the string machinery -/

lemma splitOnChar_ne_nil (c : Char) (s : Str) : splitOnChar c s ≠ [] := by
  induction s with
  | nil => simp [splitOnChar]
  | cons x xs ih =>
    simp only [splitOnChar]
    split
    · simp
    · cases h : splitOnChar c xs with
      | nil => exact absurd h ih
      | cons p ps => simp [h]

lemma splitOnChar_eq_single_nil (c : Char) (s : Str)
    (h : splitOnChar c s = [[]]) : s = [] := by
  cases s with
  | nil => rfl
  | cons x xs =>
    exfalso
    simp only [splitOnChar] at h
    by_cases hx : x = c
    · rw [if_pos hx] at h
      simp only [List.cons.injEq] at h
      exact splitOnChar_ne_nil c xs h.2
    · rw [if_neg hx] at h
      cases hs : splitOnChar c xs with
      | nil => exact splitOnChar_ne_nil c xs hs
      | cons p ps => rw [hs] at h; simp at h

lemma getlineSplit_eq_nil (c : Char) (s : Str)
    (h : getlineSplit c s = []) : s = [] := by
  unfold getlineSplit at h
  split at h
  · next hlast =>
    apply splitOnChar_eq_single_nil c
    cases hsp : splitOnChar c s with
    | nil => exact absurd hsp (splitOnChar_ne_nil c s)
    | cons p ps =>
      rw [hsp] at h hlast
      cases ps with
      | nil =>
        simp only [List.getLast?_singleton, Option.some_inj] at hlast
        rw [hlast]
      | cons q qs =>
        exfalso
        have hlen := congrArg List.length h
        simp [List.length_dropLast] at hlen
  · next => exact absurd h (splitOnChar_ne_nil c s)

lemma splitFirst_eq (c : Char) :
    ∀ (s : Str) (p : Str × Str), splitFirst c s = some p → s = p.1 ++ c :: p.2 := by
  intro s
  induction s with
  | nil => intro p h; simp [splitFirst] at h
  | cons x xs ih =>
    intro p h
    simp only [splitFirst] at h
    by_cases hx : x = c
    · rw [if_pos hx] at h
      simp only [Option.some_inj] at h
      subst h
      simp [hx]
    · rw [if_neg hx] at h
      cases hs : splitFirst c xs with
      | none => rw [hs] at h; simp at h
      | some q =>
        rw [hs] at h
        simp only [Option.map_some', Option.some_inj] at h
        subst h
        simp only [List.cons_append, List.cons.injEq, true_and]
        exact ih q hs

lemma splitFirst_ne_nil (c : Char) (s : Str) (p : Str × Str)
    (h : splitFirst c s = some p) : s ≠ [] := by
  intro hs; subst hs; simp [splitFirst] at h

/-! ### Lemmas about quality normalization -/

lemma mkRat_thousandth : (mkRat 1 1000 : ℚ) = 1/1000 := by
  norm_num [Rat.mkRat_eq_div]

lemma normalizeQ_range (q : ℚ) : specQSet (normalizeQ q) := by
  unfold normalizeQ specQSet
  rw [mkRat_thousandth]
  split
  · right; norm_num
  · split
    · left; rfl
    · next h1 h2 =>
      push_neg at h1
      right
      refine ⟨?_, h1.2⟩
      rcases lt_or_le q (1/1000) with hlt | hle
      · exact absurd (h1.1 hlt) h2
      · exact hle

/-! ### Lemmas about the parameter loop -/

lemma foldParams_fields :
    ∀ (ps : List Str) (ct ct' : ParsedContentType), foldParams ps ct = some ct' →
      ct'.range = ct.range ∧ ct'.type = ct.type ∧ ct'.subtype = ct.subtype ∧
      ct'.order = ct.order := by
  intro ps
  induction ps with
  | nil =>
    intro ct ct' h
    simp only [foldParams, Option.some_inj] at h
    subst h; exact ⟨rfl, rfl, rfl, rfl⟩
  | cons p ps ih =>
    intro ct ct' h
    simp only [foldParams] at h
    split at h
    · simp at h
    · split at h
      · split at h
        · simp at h
        · next raw _ =>
          have := ih { ct with qvalue := normalizeQ raw } ct' h
          simpa using this
      · exact ih _ _ h

lemma foldParams_q :
    ∀ (ps : List Str) (ct ct' : ParsedContentType), specQSet ct.qvalue →
      foldParams ps ct = some ct' → specQSet ct'.qvalue := by
  intro ps
  induction ps with
  | nil =>
    intro ct ct' hq h
    simp only [foldParams, Option.some_inj] at h
    subst h; exact hq
  | cons p ps ih =>
    intro ct ct' hq h
    simp only [foldParams] at h
    split at h
    · simp at h
    · split at h
      · split at h
        · simp at h
        · next raw _ =>
          exact ih { ct with qvalue := normalizeQ raw } ct' (normalizeQ_range raw) h
      · exact ih _ _ hq h

/-- Whether a parameter segment carries the quality key, exactly as the
source tests it after splitting at the first '=' and trimming. -/
def paramIsQ (p : Str) : Prop :=
  match splitFirst '=' (trim p) with
  | some kv => trim kv.1 = ['q'] ∨ trim kv.1 = ['Q']
  | none => False

instance : DecidablePred paramIsQ := fun p => by
  unfold paramIsQ
  cases splitFirst '=' (trim p) <;> infer_instance

lemma foldParams_noQ :
    ∀ (ps : List Str) (ct ct' : ParsedContentType), (∀ p ∈ ps, ¬ paramIsQ p) →
      foldParams ps ct = some ct' → ct'.qvalue = ct.qvalue := by
  intro ps
  induction ps with
  | nil =>
    intro ct ct' _ h
    simp only [foldParams, Option.some_inj] at h
    subst h; rfl
  | cons p ps ih =>
    intro ct ct' hnq h
    simp only [foldParams] at h
    split at h
    · simp at h
    · next kv hkv =>
      split at h
      · next hkey =>
        exfalso
        exact hnq p (by simp) (by unfold paramIsQ; rw [hkv]; exact hkey)
      · exact ih _ _ (fun r hr => hnq r (by simp [hr])) h

lemma foldParams_map_order :
    ∀ (ps : List Str) (ct : ParsedContentType) (k : ℕ),
      foldParams ps { ct with order := k }
        = (foldParams ps ct).map (fun c => { c with order := k }) := by
  intro ps
  induction ps with
  | nil => intro ct k; rfl
  | cons p ps ih =>
    intro ct k
    simp only [foldParams]
    split
    · rfl
    · split
      · split
        · rfl
        · next raw _ =>
          exact ih { ct with qvalue := normalizeQ raw } k
      · exact ih ct k

/-! ### Lemmas about the token parser -/

lemma parseToken_map_order (tok : Str) (k : ℕ) :
    parseToken tok k = (parseToken tok 0).map (fun c => { c with order := k }) := by
  rw [parseToken, parseToken]
  cases getlineSplit ';' (trim tok) with
  | nil => rfl
  | cons p0 ps =>
    simp only
    cases splitFirst '/' (stringToLower (trim p0)) with
    | none => rfl
    | some ts =>
      simp only
      split
      · rfl
      · exact foldParams_map_order ps
          { range := stringToLower (trim p0), type := ts.1, subtype := ts.2,
            qvalue := 1, order := 0 } k

lemma parseToken_none (tok : Str) (k : ℕ) (h : parseToken tok 0 = none) :
    parseToken tok k = none := by
  rw [parseToken_map_order, h]; rfl

lemma parseToken_shape (tok : Str) (n : ℕ) (ct : ParsedContentType)
    (h : parseToken tok n = some ct) :
    (ct.range = [] ∧ ct.type = [] ∧ ct.subtype = []) ∨
      ct.range = ct.type ++ '/' :: ct.subtype := by
  rw [parseToken] at h
  split at h
  · next hg =>
    simp only [Option.some_inj] at h
    subst h
    left
    exact ⟨getlineSplit_eq_nil ';' _ hg, rfl, rfl⟩
  · next p0 ps _ =>
    split at h
    · simp at h
    · next ts hs =>
      split at h
      · simp at h
      · right
        obtain ⟨hr, hty, hsub, _⟩ := foldParams_fields ps _ ct h
        rw [hr, hty, hsub]
        dsimp only
        exact splitFirst_eq '/' _ ts hs

lemma parseToken_wildcard (tok : Str) (n : ℕ) (ct : ParsedContentType)
    (h : parseToken tok n = some ct) (hty : ct.type = star) : ct.subtype = star := by
  rw [parseToken] at h
  split at h
  · simp only [Option.some_inj] at h
    subst h
    simp [star] at hty
  · next p0 ps _ =>
    split at h
    · simp at h
    · split at h
      · simp at h
      · next hnot =>
        obtain ⟨_, hty', hsub, _⟩ := foldParams_fields ps _ ct h
        dsimp only at hty' hsub
        rw [hty'] at hty
        rw [hsub]
        by_contra hne
        exact hnot ⟨hty, hne⟩

lemma parseToken_q (tok : Str) (n : ℕ) (ct : ParsedContentType)
    (h : parseToken tok n = some ct) : specQSet ct.qvalue := by
  rw [parseToken] at h
  split at h
  · simp only [Option.some_inj] at h
    subst h
    right; norm_num
  · next p0 ps _ =>
    split at h
    · simp at h
    · split at h
      · simp at h
      · exact foldParams_q ps _ ct (by dsimp only; right; norm_num) h

/-! ### Lemmas about the comma-token loop -/

lemma parseToken_order (tok : Str) (n : ℕ) (ct : ParsedContentType)
    (h : parseToken tok n = some ct) : ct.order = n := by
  rw [parseToken_map_order] at h
  cases hq : parseToken tok 0 with
  | none => rw [hq] at h; simp at h
  | some c0 =>
    rw [hq] at h
    simp only [Option.map_some', Option.some_inj] at h
    rw [← h]

lemma collectTokens_mem (ts : List Str) :
    ∀ (n : ℕ) (c : ParsedContentType), c ∈ collectTokens ts n →
      ∃ t m, t ∈ ts ∧ parseToken t m = some c := by
  induction ts with
  | nil => intro n c h; simp [collectTokens] at h
  | cons t ts ih =>
    intro n c h
    rw [collectTokens] at h
    cases hp : parseToken t n with
    | none =>
      rw [hp] at h
      obtain ⟨u, m, hu, hm⟩ := ih (n + 1) c h
      exact ⟨u, m, by simp [hu], hm⟩
    | some ct =>
      rw [hp] at h
      rcases List.mem_cons.mp h with h1 | h2
      · exact ⟨t, n, by simp, by rw [hp, h1]⟩
      · obtain ⟨u, m, hu, hm⟩ := ih (n + 1) c h2
        exact ⟨u, m, by simp [hu], hm⟩

lemma collectTokens_append (l₁ l₂ : List Str) :
    ∀ n, collectTokens (l₁ ++ l₂) n
      = collectTokens l₁ n ++ collectTokens l₂ (n + l₁.length) := by
  induction l₁ with
  | nil => intro n; simp [collectTokens]
  | cons t ts ih =>
    intro n
    rw [List.cons_append, collectTokens, collectTokens]
    have h2 : n + 1 + ts.length = n + (t :: ts).length := by
      simp [List.length_cons]; omega
    cases parseToken t n with
    | none => rw [ih (n + 1), h2]
    | some ct => rw [ih (n + 1), h2, List.cons_append]

lemma collectTokens_shift (ts : List Str) :
    ∀ n, collectTokens ts (n + 1)
      = (collectTokens ts n).map (fun c => { c with order := c.order + 1 }) := by
  induction ts with
  | nil => intro n; rfl
  | cons t ts ih =>
    intro n
    rw [collectTokens, collectTokens]
    cases hp : parseToken t 0 with
    | none =>
      rw [parseToken_none t (n + 1) hp, parseToken_none t n hp]
      exact ih (n + 1)
    | some c0 =>
      rw [parseToken_map_order t (n + 1), parseToken_map_order t n, hp]
      simp only [Option.map_some']
      rw [ih (n + 1)]
      rfl

lemma collectTokens_orders (ts : List Str) :
    ∀ (n : ℕ) (c : ParsedContentType), c ∈ collectTokens ts n →
      n ≤ c.order ∧ c.order < n + ts.length := by
  induction ts with
  | nil => intro n c h; simp [collectTokens] at h
  | cons t ts ih =>
    intro n c h
    rw [collectTokens] at h
    cases hp : parseToken t n with
    | none =>
      rw [hp] at h
      obtain ⟨h1, h2⟩ := ih (n + 1) c h
      refine ⟨by omega, ?_⟩
      simp only [List.length_cons]
      omega
    | some ct =>
      rw [hp] at h
      rcases List.mem_cons.mp h with h1 | h2
      · have := parseToken_order t n ct hp
        subst h1
        refine ⟨by omega, ?_⟩
        simp only [List.length_cons]
        omega
      · obtain ⟨h1, h2⟩ := ih (n + 1) c h2
        refine ⟨by omega, ?_⟩
        simp only [List.length_cons]
        omega

/-! ### Lemmas about the sort -/

lemma insertCT_perm (x : ParsedContentType) :
    ∀ l, List.Perm (insertCT x l) (x :: l) := by
  intro l
  induction l with
  | nil => exact List.Perm.refl _
  | cons h t ih =>
    rw [insertCT]
    split
    · exact List.Perm.refl _
    · exact List.Perm.trans (List.Perm.cons h ih) (List.Perm.swap x h t)

lemma sortCT_perm : ∀ l, List.Perm (sortCT l) l := by
  intro l
  induction l with
  | nil => exact List.Perm.refl _
  | cons x xs ih =>
    rw [sortCT]
    exact List.Perm.trans (insertCT_perm x (sortCT xs)) (List.Perm.cons x ih)

lemma mem_sortCT {c : ParsedContentType} {l : List ParsedContentType} :
    c ∈ sortCT l ↔ c ∈ l := (sortCT_perm l).mem_iff

lemma compare_q_ge (a b : ParsedContentType) (h : compareContentTypes a b = true) :
    b.qvalue ≤ a.qvalue := by
  unfold compareContentTypes at h
  by_cases hq : a.qvalue = b.qvalue
  · rw [hq]
  · rw [if_pos hq] at h
    exact le_of_lt (of_decide_eq_true h)

lemma compare_q_le (a b : ParsedContentType) (h : compareContentTypes a b = false) :
    a.qvalue ≤ b.qvalue := by
  unfold compareContentTypes at h
  by_cases hq : a.qvalue = b.qvalue
  · rw [hq]
  · rw [if_pos hq] at h
    exact not_lt.mp (of_decide_eq_false h)

lemma insertCT_pairwise_q (x : ParsedContentType) :
    ∀ (l : List ParsedContentType),
      l.Pairwise (fun a b => b.qvalue ≤ a.qvalue) →
      (insertCT x l).Pairwise (fun a b => b.qvalue ≤ a.qvalue) := by
  intro l
  induction l with
  | nil => intro _; simp [insertCT]
  | cons h t ih =>
    intro hl
    rcases List.pairwise_cons.mp hl with ⟨hh, ht⟩
    rw [insertCT]
    split
    · next hc =>
      refine List.pairwise_cons.mpr ⟨?_, hl⟩
      intro y hy
      rcases List.mem_cons.mp hy with rfl | hyt
      · exact compare_q_ge x y hc
      · exact le_trans (hh y hyt) (compare_q_ge x h hc)
    · next hc =>
      refine List.pairwise_cons.mpr ⟨?_, ih ht⟩
      intro y hy
      have hy2 : y ∈ x :: t := (insertCT_perm x t).mem_iff.mp hy
      rcases List.mem_cons.mp hy2 with rfl | hyt
      · exact compare_q_le y h (by simpa using hc)
      · exact hh y hyt

lemma sortCT_pairwise_q :
    ∀ (l : List ParsedContentType),
      (sortCT l).Pairwise (fun a b => b.qvalue ≤ a.qvalue) := by
  intro l
  induction l with
  | nil => simp [sortCT]
  | cons x xs ih =>
    rw [sortCT]
    exact insertCT_pairwise_q x (sortCT xs) ih

/-! ### Characterization of the matching loop -/

lemma qOfLast_cons (x : ParsedContentType) (l : List ParsedContentType) (q : ℚ) :
    qOfLast (x :: l) q = qOfLast l x.qvalue := by
  cases l with
  | nil => rfl
  | cons y t =>
    unfold qOfLast
    rw [List.getLast?_cons_cons]
    cases hlast : (y :: t).getLast? with
    | none => simp at hlast
    | some e => rfl

lemma scanFold_true (cty csub : Str) :
    ∀ (l : List ParsedContentType) (q : ℚ),
      l.foldl (scanStep cty csub) (q, true)
        = (qOfLast (l.filter fun a => decide (exactP cty csub a)) q, true) := by
  intro l
  induction l with
  | nil => intro q; rfl
  | cons x l ih =>
    intro q
    rw [List.foldl_cons]
    by_cases hx : exactP cty csub x
    · have hstep : scanStep cty csub (q, true) x = (x.qvalue, true) := by
        unfold scanStep
        rw [if_pos ⟨hx.1, Or.inl hx.2⟩]
      rw [hstep, ih x.qvalue]
      have hf : (x :: l).filter (fun a => decide (exactP cty csub a))
          = x :: l.filter (fun a => decide (exactP cty csub a)) := by
        simp [List.filter_cons, hx]
      rw [hf, qOfLast_cons]
    · have hstep : scanStep cty csub (q, true) x = (q, true) := by
        unfold scanStep
        rw [if_neg, if_neg]
        · rintro ⟨_, h2⟩
          simp at h2
        · rintro ⟨h1, h2 | ⟨_, h3⟩⟩
          · exact hx ⟨h1, h2⟩
          · simp at h3
      rw [hstep, ih q]
      have hf : (x :: l).filter (fun a => decide (exactP cty csub a))
          = l.filter (fun a => decide (exactP cty csub a)) := by
        simp [List.filter_cons, hx]
      rw [hf]

lemma scanFold_false (cty csub : Str) :
    ∀ (l : List ParsedContentType), (∀ a ∈ l, a.type = star → a.subtype = star) →
      ∀ (q : ℚ),
      l.foldl (scanStep cty csub) (q, false)
        = (qOfLast (l.filter fun a => decide (exactP cty csub a))
             (qOfHead (l.filter fun a => decide (wsubP cty csub a))
               (qOfLast (l.filter fun a => decide (starP cty a)) q)),
           decide ((l.filter fun a => decide (exactP cty csub a)) ≠ [] ∨
             (l.filter fun a => decide (wsubP cty csub a)) ≠ [])) := by
  intro l
  induction l with
  | nil => intro _ q; rfl
  | cons x l ih =>
    intro wf q
    have wfl : ∀ a ∈ l, a.type = star → a.subtype = star :=
      fun a ha => wf a (List.mem_cons_of_mem x ha)
    rw [List.foldl_cons]
    by_cases hex : exactP cty csub x
    · have hstep : scanStep cty csub (q, false) x = (x.qvalue, true) := by
        unfold scanStep
        rw [if_pos ⟨hex.1, Or.inl hex.2⟩]
      rw [hstep, scanFold_true cty csub l x.qvalue]
      have hfe : (x :: l).filter (fun a => decide (exactP cty csub a))
          = x :: l.filter (fun a => decide (exactP cty csub a)) := by
        simp [List.filter_cons, hex]
      rw [hfe, qOfLast_cons]
      simp
    · by_cases hws : wsubP cty csub x
      · have hstep : scanStep cty csub (q, false) x = (x.qvalue, true) := by
          unfold scanStep
          rw [if_pos ⟨hws.1, Or.inr ⟨hws.2.1, rfl⟩⟩]
        rw [hstep, scanFold_true cty csub l x.qvalue]
        have hstar_neg : ¬ starP cty x := by
          rintro ⟨h1, h2⟩
          rw [hws.1] at h1
          exact h2 h1
        have hfe : (x :: l).filter (fun a => decide (exactP cty csub a))
            = l.filter (fun a => decide (exactP cty csub a)) := by
          simp [List.filter_cons, hex]
        have hfw : (x :: l).filter (fun a => decide (wsubP cty csub a))
            = x :: l.filter (fun a => decide (wsubP cty csub a)) := by
          simp [List.filter_cons, hws]
        rw [hfe, hfw]
        simp [qOfHead]
      · by_cases hst : starP cty x
        · have hstep : scanStep cty csub (q, false) x = (x.qvalue, false) := by
            unfold scanStep
            rw [if_neg, if_pos ⟨hst.1, rfl⟩]
            rintro ⟨h1, _⟩
            rw [hst.1] at h1
            exact hst.2 h1.symm
          rw [hstep, ih wfl x.qvalue]
          have hfe : (x :: l).filter (fun a => decide (exactP cty csub a))
              = l.filter (fun a => decide (exactP cty csub a)) := by
            simp [List.filter_cons, hex]
          have hfw : (x :: l).filter (fun a => decide (wsubP cty csub a))
              = l.filter (fun a => decide (wsubP cty csub a)) := by
            simp [List.filter_cons, hws]
          have hfs : (x :: l).filter (fun a => decide (starP cty a))
              = x :: l.filter (fun a => decide (starP cty a)) := by
            simp [List.filter_cons, hst]
          rw [hfe, hfw, hfs, qOfLast_cons]
        · have hstep : scanStep cty csub (q, false) x = (q, false) := by
            have hb1 : ¬ (x.type = cty ∧ (x.subtype = csub ∨
                (x.subtype = star ∧ ((q, false) : ℚ × Bool).2 = false))) := by
              rintro ⟨h1, h2 | ⟨h2, _⟩⟩
              · exact hex ⟨h1, h2⟩
              · by_cases hcs : csub = star
                · exact hex ⟨h1, by rw [h2, hcs]⟩
                · exact hws ⟨h1, h2, hcs⟩
            have hb2 : ¬ (x.type = star ∧ ((q, false) : ℚ × Bool).2 = false) := by
              rintro ⟨h1, _⟩
              have hcty : cty = star := by
                by_contra hne
                exact hst ⟨h1, hne⟩
              exact hb1 ⟨by rw [h1, hcty],
                Or.inr ⟨wf x (List.mem_cons_self x l) h1, rfl⟩⟩
            unfold scanStep
            rw [if_neg hb1, if_neg hb2]
          rw [hstep, ih wfl q]
          have hfe : (x :: l).filter (fun a => decide (exactP cty csub a))
              = l.filter (fun a => decide (exactP cty csub a)) := by
            simp [List.filter_cons, hex]
          have hfw : (x :: l).filter (fun a => decide (wsubP cty csub a))
              = l.filter (fun a => decide (wsubP cty csub a)) := by
            simp [List.filter_cons, hws]
          have hfs : (x :: l).filter (fun a => decide (starP cty a))
              = l.filter (fun a => decide (starP cty a)) := by
            simp [List.filter_cons, hst]
          rw [hfe, hfw, hfs]

lemma scanAccepted_eq_spec (acc : List ParsedContentType) (cty csub : Str)
    (wf : ∀ a ∈ acc, a.type = star → a.subtype = star) :
    scanAccepted acc cty csub = effectiveQualitySpec acc cty csub := by
  unfold scanAccepted effectiveQualitySpec
  rw [scanFold_false cty csub acc wf 0]

lemma scanFold_q_cases (cty csub : Str) :
    ∀ (l : List ParsedContentType) (st : ℚ × Bool),
      (l.foldl (scanStep cty csub) st).1 = st.1 ∨
        ∃ a ∈ l, (l.foldl (scanStep cty csub) st).1 = a.qvalue := by
  intro l
  induction l with
  | nil => intro st; left; rfl
  | cons x l ih =>
    intro st
    rw [List.foldl_cons]
    rcases ih (scanStep cty csub st x) with h | ⟨a, ha, h⟩
    · rw [h]
      unfold scanStep
      split
      · right; exact ⟨x, by simp, rfl⟩
      · split
        · right; exact ⟨x, by simp, rfl⟩
        · left; rfl
    · right; exact ⟨a, by simp [ha], h⟩

lemma scanAccepted_cases (acc : List ParsedContentType) (cty csub : Str) :
    scanAccepted acc cty csub = 0 ∨
      ∃ a ∈ acc, scanAccepted acc cty csub = a.qvalue := by
  unfold scanAccepted
  rcases scanFold_q_cases cty csub acc (0, false) with h | h
  · left; exact h
  · right; exact h

/-! ### Lemmas about the candidate loop -/

lemma mkCandidates_q (acc : List ParsedContentType) :
    ∀ (av : List Str) (n : ℕ) (c : ParsedContentType), c ∈ mkCandidates acc av n →
      c.qvalue = scanAccepted acc c.type c.subtype := by
  intro av
  induction av with
  | nil => intro n c h; simp [mkCandidates] at h
  | cons s rest ih =>
    intro n c h
    rw [mkCandidates] at h
    cases hs : splitFirst '/' (stringToLower (trim s)) with
    | none => rw [hs] at h; exact ih n c h
    | some ts =>
      rw [hs] at h
      rcases List.mem_cons.mp h with h1 | h2
      · rw [h1]
      · exact ih (n + 1) c h2

lemma mkCandidates_range_ne (acc : List ParsedContentType) :
    ∀ (av : List Str) (n : ℕ) (c : ParsedContentType), c ∈ mkCandidates acc av n →
      c.range ≠ [] := by
  intro av
  induction av with
  | nil => intro n c h; simp [mkCandidates] at h
  | cons s rest ih =>
    intro n c h
    rw [mkCandidates] at h
    cases hs : splitFirst '/' (stringToLower (trim s)) with
    | none => rw [hs] at h; exact ih n c h
    | some ts =>
      rw [hs] at h
      rcases List.mem_cons.mp h with h1 | h2
      · rw [h1]
        exact splitFirst_ne_nil '/' _ ts hs
      · exact ih (n + 1) c h2

/-! ### Invariance under order relabeling -/

/-- Relabel the order field of an entry. -/
def reorder (f : ℕ → ℕ) (c : ParsedContentType) : ParsedContentType :=
  { c with order := f c.order }

lemma compare_reorder (f : ℕ → ℕ) (hf : StrictMono f) (a b : ParsedContentType) :
    compareContentTypes (reorder f a) (reorder f b) = compareContentTypes a b := by
  unfold compareContentTypes reorder
  simp only [hf.lt_iff_lt]

lemma insertCT_map_reorder (f : ℕ → ℕ) (hf : StrictMono f) (x : ParsedContentType) :
    ∀ l, insertCT (reorder f x) (l.map (reorder f)) = (insertCT x l).map (reorder f) := by
  intro l
  induction l with
  | nil => rfl
  | cons h t ih =>
    rw [List.map_cons, insertCT, insertCT, compare_reorder f hf]
    split
    · rw [List.map_cons, List.map_cons]
    · rw [List.map_cons, ih]

lemma sortCT_map_reorder (f : ℕ → ℕ) (hf : StrictMono f) :
    ∀ l, sortCT (l.map (reorder f)) = (sortCT l).map (reorder f) := by
  intro l
  induction l with
  | nil => rfl
  | cons x xs ih =>
    rw [List.map_cons, sortCT, sortCT, ih, insertCT_map_reorder f hf]

lemma scanStep_reorder (cty csub : Str) (f : ℕ → ℕ) (st : ℚ × Bool)
    (a : ParsedContentType) :
    scanStep cty csub st (reorder f a) = scanStep cty csub st a := rfl

lemma scanAccepted_reorder (f : ℕ → ℕ) (acc : List ParsedContentType) (cty csub : Str) :
    scanAccepted (acc.map (reorder f)) cty csub = scanAccepted acc cty csub := by
  unfold scanAccepted
  rw [List.foldl_map]
  simp only [scanStep_reorder]

lemma mkCandidates_reorder (f : ℕ → ℕ) (acc : List ParsedContentType) :
    ∀ (av : List Str) (n : ℕ),
      mkCandidates (acc.map (reorder f)) av n = mkCandidates acc av n := by
  intro av
  induction av with
  | nil => intro n; rfl
  | cons s rest ih =>
    intro n
    rw [mkCandidates, mkCandidates]
    cases splitFirst '/' (stringToLower (trim s)) with
    | none => exact ih n
    | some ts =>
      dsimp only
      rw [scanAccepted_reorder, ih (n + 1)]

lemma getPref_reorder (f : ℕ → ℕ) (acc : List ParsedContentType) (av : List Str) :
    getPreferableContentType (acc.map (reorder f)) av
      = getPreferableContentType acc av := by
  unfold getPreferableContentType
  rw [mkCandidates_reorder]

/-! ### Small generic list helpers -/

lemma map_congr_mem {α β : Type} (f g : α → β) :
    ∀ (l : List α), (∀ a ∈ l, f a = g a) → l.map f = l.map g := by
  intro l
  induction l with
  | nil => intro _; rfl
  | cons x xs ih =>
    intro hfg
    rw [List.map_cons, List.map_cons, hfg x (by simp), ih (fun a ha => hfg a (by simp [ha]))]

lemma map_id_mem {α : Type} (f : α → α) :
    ∀ (l : List α), (∀ a ∈ l, f a = a) → l.map f = l := by
  intro l
  induction l with
  | nil => intro _; rfl
  | cons x xs ih =>
    intro hf
    rw [List.map_cons, hf x (by simp), ih (fun a ha => hf a (by simp [ha]))]

/-! ### Assembly lemmas -/

lemma parseAccepted_wildcard (h : Str) :
    ∀ c ∈ sortCT (parseAccepted h), c.type = star → c.subtype = star := by
  intro c hc
  obtain ⟨t, m, _, hp⟩ := collectTokens_mem (getlineSplit ',' h) 0 c (mem_sortCT.mp hc)
  exact parseToken_wildcard t m c hp

/-! ### The claims -/

/-- Claim C1: during negotiation, every valid candidate's effective quality
over the comparator-sorted accepted ranges follows the precedence of the
specification: an exact match overwrites unconditionally (the last one
scanned wins), a wildcard-subtype match applies only while no exact or
wildcard-subtype match has been recorded (the first one wins and blocks
later wildcard-subtype matches but not later exact overwrites), and a full
wildcard applies whenever no exact or wildcard-subtype match has been
recorded without blocking anything (the last such one pending wins). -/
theorem claimC1_effective_quality (h : Str) (avail : List Str) :
    ∀ c ∈ mkCandidates (sortCT (parseAccepted h)) avail 0,
      c.qvalue = effectiveQualitySpec (sortCT (parseAccepted h)) c.type c.subtype := by
  intro c hc
  rw [mkCandidates_q _ avail 0 c hc]
  exact scanAccepted_eq_spec _ c.type c.subtype (parseAccepted_wildcard h)

/-- Witness for C1: the concrete candidate produced for header
"text/html;q=0.5, text/plain" and available list ["text/html"]. -/
theorem claimC1_witness :
    ({ range := ("text/html").data, type := ("text").data, subtype := ("html").data,
        qvalue := mkRat 1 2, order := 0 } : ParsedContentType).qvalue
      = effectiveQualitySpec (sortCT (parseAccepted ("text/html;q=0.5, text/plain").data))
          ("text").data ("html").data := by
  have := claimC1_effective_quality (("text/html;q=0.5, text/plain").data)
    [("text/html").data]
    { range := ("text/html").data, type := ("text").data, subtype := ("html").data,
      qvalue := mkRat 1 2, order := 0 } (by decide)
  exact this

/-- Claim C2 counterexample: header "x" parses to an empty accepted list,
yet with available list ["text/html", "*/*"] negotiation returns "*/*",
not available.front() = "text/html": with empty accepted the candidates
all score 0 and the comparator puts the wildcard entry first. -/
theorem claimC2_counterexample :
    parseAccepted ("x").data = [] ∧
      parse ("x").data [("text/html").data, ("*/*").data] = ("*/*").data ∧
      ("*/*").data ≠ ("text/html").data := by
  exact ⟨by decide, by decide, by decide⟩

/-- Claim C2 (amended): when parsing yields an empty accepted list and the
header is non-empty, every valid available entry still becomes a candidate
with quality 0, and negotiation returns the normalized range of the first
candidate under the comparator sort; available.front() is returned only
when no available entry produces a candidate (and the empty string only
when the available list is empty).  (The claim's unconditional fallback to
available.front() holds only for the empty header.) -/
theorem claimC2_amended (h : Str) (avail : List Str) (hne : h ≠ [])
    (hacc : parseAccepted h = []) :
    (∀ c ∈ mkCandidates ([] : List ParsedContentType) avail 0, c.qvalue = 0) ∧
      parse h avail
        = (match sortCT (mkCandidates ([] : List ParsedContentType) avail 0) with
           | c :: _ => c.range
           | [] =>
             match avail with
             | a :: _ => a
             | [] => []) := by
  constructor
  · intro c hc
    rw [mkCandidates_q [] avail 0 c hc]
    rfl
  · unfold parse
    rw [if_neg hne, hacc]
    rfl

/-- Witness for C2 (amended) at header "x" and available list ["a/b"]. -/
theorem claimC2_witness :
    parse ("x").data [("a/b").data] = ("a/b").data := by
  have := claimC2_amended ("x").data [("a/b").data] (by decide) (by decide)
  rw [this.2]
  decide

/-- Claim C3: with an empty header, parse returns the first available
entry verbatim, or the empty string when the available list is empty. -/
theorem claimC3_empty_header (avail : List Str) :
    parse [] avail
      = (match avail with
         | a :: _ => a
         | [] => []) := by
  unfold parse
  rw [if_pos rfl]

/-- Witness for C3 at a mixed-case available entry and at the empty list. -/
theorem claimC3_witness :
    parse [] [("Text/HTML").data] = ("Text/HTML").data ∧
      parse [] ([] : List Str) = [] := by
  exact ⟨claimC3_empty_header [("Text/HTML").data], claimC3_empty_header []⟩

/-- Claim C4: quality normalization is the pure function the spec states
(0 to the sentinel -1, out-of-range to 1, everything else kept), and a
surviving token without any q parameter keeps the default qvalue 1. -/
theorem claimC4_quality_normalization :
    (∀ raw : ℚ, normalizeQ raw = qNormSpec raw) ∧
      (∀ (tok : Str) (n : ℕ) (ct : ParsedContentType), parseToken tok n = some ct →
        (∀ p ∈ (getlineSplit ';' (trim tok)).tail, ¬ paramIsQ p) → ct.qvalue = 1) := by
  constructor
  · intro raw
    unfold normalizeQ qNormSpec
    rw [mkRat_thousandth]
    by_cases h0 : raw = 0
    · subst h0
      have hA : ¬ (((0:ℚ) < 1/1000 ∧ (0:ℚ) ≠ 0) ∨ (0:ℚ) > 1) := by
        push_neg
        exact ⟨fun _ => rfl, by norm_num⟩
      rw [if_neg hA, if_pos rfl, if_pos rfl]
    · rw [if_neg h0]
      by_cases hD : raw < 1/1000 ∨ raw > 1
      · have hA : (raw < 1/1000 ∧ raw ≠ 0) ∨ raw > 1 := by
          rcases hD with h | h
          · exact Or.inl ⟨h, h0⟩
          · exact Or.inr h
        rw [if_pos hA, if_neg h0, if_pos hD]
      · have hA : ¬ ((raw < 1/1000 ∧ raw ≠ 0) ∨ raw > 1) := by
          rintro (⟨h, _⟩ | h)
          · exact hD (Or.inl h)
          · exact hD (Or.inr h)
        rw [if_neg hA, if_neg h0, if_neg hD]
  · intro tok n ct h hnq
    rw [parseToken] at h
    split at h
    · simp only [Option.some_inj] at h
      rw [← h]
    · next p0 ps hg =>
      split at h
      · simp at h
      · split at h
        · simp at h
        · rw [hg] at hnq
          have h1 := foldParams_noQ ps _ ct (fun p hp => hnq p hp) h
          simpa using h1

/-- Witness for C4: normalization at 0 and the default quality for the
token "text/html;a=b", which carries no q parameter. -/
theorem claimC4_witness :
    normalizeQ 0 = qNormSpec 0 ∧
      ({ range := ("text/html").data, type := ("text").data, subtype := ("html").data,
          qvalue := 1, order := 0 } : ParsedContentType).qvalue = 1 := by
  refine ⟨claimC4_quality_normalization.1 0, ?_⟩
  exact claimC4_quality_normalization.2 (("text/html;a=b").data) 0
    { range := ("text/html").data, type := ("text").data, subtype := ("html").data,
      qvalue := 1, order := 0 } (by decide) (by decide)

/-- Tie-level helper: the wildcard-then-order tie-break of the comparator
is asymmetric. -/
lemma wildTie_asymm (xa xb : Str) (na nb : ℕ) (hne : xa ≠ xb)
    (hab : (if xa = star then true else if xb = star then false
        else decide (na < nb)) = true) :
    (if xb = star then true else if xa = star then false
      else decide (nb < na)) = false := by
  by_cases ha : xa = star
  · have hb : xb ≠ star := fun hb => hne (ha.trans hb.symm)
    rw [if_neg hb, if_pos ha]
  · rw [if_neg ha] at hab
    by_cases hb : xb = star
    · rw [if_pos hb] at hab
      exact absurd hab (by simp)
    · rw [if_neg hb] at hab
      rw [if_neg hb, if_neg ha]
      have h1 := of_decide_eq_true hab
      exact decide_eq_false (by omega)

/-- Tie-level helper: the wildcard-then-order tie-break of the comparator
is total on entries with distinct orders. -/
lemma wildTie_total (xa xb : Str) (na nb : ℕ) (hno : na ≠ nb) :
    (if xa = star then true else if xb = star then false
        else decide (na < nb)) = true ∨
      (if xb = star then true else if xa = star then false
        else decide (nb < na)) = true := by
  by_cases ha : xa = star
  · left; rw [if_pos ha]
  · by_cases hb : xb = star
    · right; rw [if_pos hb]
    · rcases Nat.lt_or_ge na nb with h | h
      · left; rw [if_neg ha, if_neg hb]; exact decide_eq_true h
      · right; rw [if_neg hb, if_neg ha]; exact decide_eq_true (by omega)

/-- Claim C5 (amended): the comparator implements exactly the precedence
the spec states (quality, then wildcard type, then wildcard subtype, then
order), and on entries with distinct orders it is asymmetric and total;
it is however NOT transitive (see the counterexample), so it is not a
strict total order and sorting with it is not uniquely determined. -/
theorem claimC5_amended :
    (∀ a b : ParsedContentType, compareContentTypes a b = compareSpec a b) ∧
      (∀ a b : ParsedContentType, compareContentTypes a b = true →
        compareContentTypes b a = false) ∧
      (∀ a b : ParsedContentType, a.order ≠ b.order →
        compareContentTypes a b = true ∨ compareContentTypes b a = true) := by
  refine ⟨?_, ?_, ?_⟩
  · intro a b
    unfold compareContentTypes compareSpec
    rcases lt_trichotomy a.qvalue b.qvalue with h | h | h
    · rw [if_pos (ne_of_lt h), if_neg (lt_asymm h), if_pos h]
      exact decide_eq_false (lt_asymm h)
    · rw [h]
      have h1 : ¬ (b.qvalue ≠ b.qvalue) := fun hne => hne rfl
      have h2 : ¬ (b.qvalue > b.qvalue) := lt_irrefl b.qvalue
      rw [if_neg h1, if_neg h2, if_neg h2]
    · rw [if_pos (ne_of_gt h), if_pos h]
      exact decide_eq_true h
  · intro a b hab
    unfold compareContentTypes at hab ⊢
    by_cases hq : a.qvalue = b.qvalue
    · have hq1 : ¬ (a.qvalue ≠ b.qvalue) := fun hne => hne hq
      have hq2 : ¬ (b.qvalue ≠ a.qvalue) := fun hne => hne hq.symm
      rw [if_neg hq1] at hab
      rw [if_neg hq2]
      by_cases hty : a.type = b.type
      · have ht1 : ¬ (a.type ≠ b.type) := fun hne => hne hty
        have ht2 : ¬ (b.type ≠ a.type) := fun hne => hne hty.symm
        rw [if_neg ht1] at hab
        rw [if_neg ht2]
        by_cases hsub : a.subtype = b.subtype
        · have hs1 : ¬ (a.subtype ≠ b.subtype) := fun hne => hne hsub
          have hs2 : ¬ (b.subtype ≠ a.subtype) := fun hne => hne hsub.symm
          rw [if_neg hs1] at hab
          rw [if_neg hs2]
          have h1 := of_decide_eq_true hab
          exact decide_eq_false (by omega)
        · have hs1 : a.subtype ≠ b.subtype := hsub
          have hs2 : b.subtype ≠ a.subtype := fun hh => hsub hh.symm
          rw [if_pos hs1] at hab
          rw [if_pos hs2]
          exact wildTie_asymm a.subtype b.subtype a.order b.order hsub hab
      · have ht1 : a.type ≠ b.type := hty
        have ht2 : b.type ≠ a.type := fun hh => hty hh.symm
        rw [if_pos ht1] at hab
        rw [if_pos ht2]
        exact wildTie_asymm a.type b.type a.order b.order hty hab
    · have hq1 : a.qvalue ≠ b.qvalue := hq
      have hq2 : b.qvalue ≠ a.qvalue := fun hh => hq hh.symm
      rw [if_pos hq1] at hab
      rw [if_pos hq2]
      have h1 := of_decide_eq_true hab
      exact decide_eq_false (lt_asymm h1)
  · intro a b hno
    unfold compareContentTypes
    by_cases hq : a.qvalue = b.qvalue
    · have hq1 : ¬ (a.qvalue ≠ b.qvalue) := fun hne => hne hq
      have hq2 : ¬ (b.qvalue ≠ a.qvalue) := fun hne => hne hq.symm
      rw [if_neg hq1, if_neg hq2]
      by_cases hty : a.type = b.type
      · have ht1 : ¬ (a.type ≠ b.type) := fun hne => hne hty
        have ht2 : ¬ (b.type ≠ a.type) := fun hne => hne hty.symm
        rw [if_neg ht1, if_neg ht2]
        by_cases hsub : a.subtype = b.subtype
        · have hs1 : ¬ (a.subtype ≠ b.subtype) := fun hne => hne hsub
          have hs2 : ¬ (b.subtype ≠ a.subtype) := fun hne => hne hsub.symm
          rw [if_neg hs1, if_neg hs2]
          rcases Nat.lt_or_ge a.order b.order with h | h
          · left; exact decide_eq_true h
          · right; exact decide_eq_true (by omega)
        · have hs1 : a.subtype ≠ b.subtype := hsub
          have hs2 : b.subtype ≠ a.subtype := fun hh => hsub hh.symm
          rw [if_pos hs1, if_pos hs2]
          exact wildTie_total a.subtype b.subtype a.order b.order hno
      · have ht1 : a.type ≠ b.type := hty
        have ht2 : b.type ≠ a.type := fun hh => hty hh.symm
        rw [if_pos ht1, if_pos ht2]
        exact wildTie_total a.type b.type a.order b.order hno
    · have hq1 : a.qvalue ≠ b.qvalue := hq
      have hq2 : b.qvalue ≠ a.qvalue := fun hh => hq hh.symm
      rw [if_pos hq1, if_pos hq2]
      rcases lt_or_gt_of_ne hq with h | h
      · right; exact decide_eq_true h
      · left; exact decide_eq_true h

/-- Claim C5 counterexample: the comparator is not transitive, hence not a
strict total order.  With equal qualities, a = (t, *, order 10) precedes
c = (t, z, order 5) by wildcard subtype, c precedes b = (u, x, order 7) by
order, yet a does not precede b (order 10 is not less than 7), although
all orders are pairwise distinct. -/
theorem claimC5_counterexample :
    compareContentTypes
        { range := [], type := ("t").data, subtype := star, qvalue := 1, order := 10 }
        { range := [], type := ("t").data, subtype := ("z").data, qvalue := 1,
          order := 5 } = true ∧
      compareContentTypes
        { range := [], type := ("t").data, subtype := ("z").data, qvalue := 1, order := 5 }
        { range := [], type := ("u").data, subtype := ("x").data, qvalue := 1,
          order := 7 } = true ∧
      compareContentTypes
        { range := [], type := ("t").data, subtype := star, qvalue := 1, order := 10 }
        { range := [], type := ("u").data, subtype := ("x").data, qvalue := 1,
          order := 7 } = false := by
  exact ⟨by decide, by decide, by decide⟩

/-- Witness for C5 (amended): asymmetry and totality instantiated at two
concrete entries with distinct orders. -/
theorem claimC5_witness :
    compareContentTypes
        { range := [], type := ("c").data, subtype := ("d").data, qvalue := 1, order := 1 }
        { range := [], type := ("a").data, subtype := ("b").data, qvalue := 1,
          order := 0 } = false ∧
      (compareContentTypes
          { range := [], type := ("a").data, subtype := ("b").data, qvalue := 1, order := 0 }
          { range := [], type := ("c").data, subtype := ("d").data, qvalue := 1,
            order := 1 } = true ∨
        compareContentTypes
          { range := [], type := ("c").data, subtype := ("d").data, qvalue := 1, order := 1 }
          { range := [], type := ("a").data, subtype := ("b").data, qvalue := 1,
            order := 0 } = true) := by
  constructor
  · exact claimC5_amended.2.1
      { range := [], type := ("a").data, subtype := ("b").data, qvalue := 1, order := 0 }
      { range := [], type := ("c").data, subtype := ("d").data, qvalue := 1, order := 1 }
      (by decide)
  · exact claimC5_amended.2.2
      { range := [], type := ("a").data, subtype := ("b").data, qvalue := 1, order := 0 }
      { range := [], type := ("c").data, subtype := ("d").data, qvalue := 1, order := 1 }
      (by decide)

/-- Claim C6 counterexample: for header "text/html;q=abc" (whose only
token carries an unparseable q) and available list ["text/html", "*/*"],
negotiation returns "*/*"; removing that entire comma-token leaves the
empty header, for which parse returns available.front() = "text/html". -/
theorem claimC6_counterexample :
    parse ("text/html;q=abc").data [("text/html").data, ("*/*").data] = ("*/*").data ∧
      parse [] [("text/html").data, ("*/*").data] = ("text/html").data ∧
      ("*/*").data ≠ ("text/html").data := by
  exact ⟨by decide, by decide, by decide⟩

/-- Claim C6 (amended): removing a discarded comma-token (in particular
one whose q value fails to parse) does not change the output, provided
the header does not become empty: if the token lists of two non-empty
headers differ exactly by one token that the parser discards, the two
negotiations agree on every available list. -/
theorem claimC6_amended (h h2 : Str) (avail : List Str) (t₁ t₂ : List Str) (tok : Str)
    (hT : getlineSplit ',' h = t₁ ++ tok :: t₂)
    (hT2 : getlineSplit ',' h2 = t₁ ++ t₂)
    (htok : parseToken tok 0 = none)
    (hne : h ≠ []) (hne2 : h2 ≠ []) :
    parse h avail = parse h2 avail := by
  have hφ : StrictMono (fun m => if m < t₁.length then m else m + 1) := by
    intro m n hmn
    dsimp only
    by_cases hm : m < t₁.length
    · by_cases hn : n < t₁.length
      · rw [if_pos hm, if_pos hn]; exact hmn
      · rw [if_pos hm, if_neg hn]; omega
    · have hn : ¬ n < t₁.length := by omega
      rw [if_neg hm, if_neg hn]; omega
  have hmapA : (collectTokens t₁ 0).map
        (reorder (fun m => if m < t₁.length then m else m + 1))
      = collectTokens t₁ 0 := by
    apply map_id_mem
    intro c hc
    obtain ⟨_, h2o⟩ := collectTokens_orders t₁ 0 c hc
    unfold reorder
    dsimp only
    rw [if_pos (by omega)]
  have hmapB : (collectTokens t₂ (0 + t₁.length)).map
        (reorder (fun m => if m < t₁.length then m else m + 1))
      = (collectTokens t₂ (0 + t₁.length)).map
          (fun c => { c with order := c.order + 1 }) := by
    apply map_congr_mem
    intro c hc
    obtain ⟨h1o, _⟩ := collectTokens_orders t₂ (0 + t₁.length) c hc
    unfold reorder
    dsimp only
    rw [if_neg (by omega)]
  have hhead : collectTokens (tok :: t₂) (0 + t₁.length)
      = collectTokens t₂ (0 + t₁.length + 1) := by
    rw [collectTokens, parseToken_none tok (0 + t₁.length) htok]
  have hacc : collectTokens (t₁ ++ tok :: t₂) 0
      = (collectTokens (t₁ ++ t₂) 0).map
          (reorder (fun m => if m < t₁.length then m else m + 1)) := by
    rw [collectTokens_append t₁ (tok :: t₂) 0, hhead,
      collectTokens_shift t₂ (0 + t₁.length), collectTokens_append t₁ t₂ 0,
      List.map_append, hmapA, hmapB]
  unfold parse
  rw [if_neg hne, if_neg hne2]
  unfold parseAccepted
  rw [hT, hT2, hacc, sortCT_map_reorder _ hφ, getPref_reorder]

/-- Witness for C6 (amended): dropping the token "a/b;q=zz" from the
header "a/b;q=zz, c/d" leaves " c/d", and both negotiate alike. -/
theorem claimC6_witness :
    parse ("a/b;q=zz, c/d").data [("c/d").data]
      = parse (" c/d").data [("c/d").data] := by
  exact claimC6_amended ("a/b;q=zz, c/d").data (" c/d").data [("c/d").data]
    [] [(" c/d").data] ("a/b;q=zz").data (by decide) (by decide) (by decide)
    (by decide) (by decide)

/-- Claim C7 counterexample: with an empty header and the non-empty
available list [""], parse returns the empty string, although the
available list is non-empty. -/
theorem claimC7_counterexample :
    parse [] [([] : Str)] = [] ∧ ([([] : Str)] : List Str) ≠ [] := by
  exact ⟨by decide, by decide⟩

/-- Claim C7 (amended): parse is a total function, and its result is
empty only if the available list is empty or its first entry is the empty
string (an empty or slash-free front entry is returned verbatim by the
fallback paths; a selected candidate always has a non-empty range). -/
theorem claimC7_amended (h : Str) (avail : List Str) (hres : parse h avail = []) :
    avail = [] ∨ avail.head? = some [] := by
  unfold parse at hres
  by_cases hh : h = []
  · rw [if_pos hh] at hres
    cases avail with
    | nil => exact Or.inl rfl
    | cons a t =>
      have ha : a = [] := hres
      exact Or.inr (by rw [List.head?_cons, ha])
  · rw [if_neg hh] at hres
    unfold getPreferableContentType at hres
    cases hs : sortCT (mkCandidates (sortCT (parseAccepted h)) avail 0) with
    | cons c cs =>
      rw [hs] at hres
      have hc : c ∈ mkCandidates (sortCT (parseAccepted h)) avail 0 := by
        apply mem_sortCT.mp
        rw [hs]
        exact List.mem_cons_self c cs
      exact absurd (show c.range = [] from hres) (mkCandidates_range_ne _ avail 0 c hc)
    | nil =>
      rw [hs] at hres
      cases avail with
      | nil => exact Or.inl rfl
      | cons a t =>
        have ha : a = [] := hres
        exact Or.inr (by rw [List.head?_cons, ha])

/-- Witness for C7 (amended) at the empty header and empty available
list. -/
theorem claimC7_witness : ([] : List Str) = [] ∨ ([] : List Str).head? = some [] := by
  exact claimC7_amended [] [] (by decide)

/-- Claim C8 counterexample: the comma-token "," (empty after trimming)
is stored with empty range, type and subtype, and the token "/" (which
does contain a slash) is stored with empty type and empty subtype. -/
theorem claimC8_counterexample :
    parseAccepted ([','] : Str)
        = [{ range := [], type := [], subtype := [], qvalue := 1, order := 0 }] ∧
      parseAccepted (['/'] : Str)
        = [{ range := ['/'], type := [], subtype := [], qvalue := 1, order := 0 }] := by
  exact ⟨by decide, by decide⟩

/-- Claim C8 (amended): every stored entry either comes from a comma-token
that is empty after trimming (range, type and subtype all empty) or
satisfies range = type ++ "/" ++ subtype, where type and subtype may each
be empty; in particular a non-empty token without '/' is never stored. -/
theorem claimC8_amended (h : Str) :
    ∀ c ∈ parseAccepted h,
      (c.range = [] ∧ c.type = [] ∧ c.subtype = []) ∨
        c.range = c.type ++ '/' :: c.subtype := by
  intro c hc
  obtain ⟨t, m, _, hp⟩ := collectTokens_mem (getlineSplit ',' h) 0 c hc
  exact parseToken_shape t m c hp

/-- Witness for C8 (amended) at the header "/". -/
theorem claimC8_witness :
    (({ range := ['/'], type := [], subtype := [], qvalue := 1, order := 0 } :
          ParsedContentType).range = [] ∧
        ({ range := ['/'], type := [], subtype := [], qvalue := 1, order := 0 } :
          ParsedContentType).type = [] ∧
        ({ range := ['/'], type := [], subtype := [], qvalue := 1, order := 0 } :
          ParsedContentType).subtype = []) ∨
      ({ range := ['/'], type := [], subtype := [], qvalue := 1, order := 0 } :
          ParsedContentType).range
        = ({ range := ['/'], type := [], subtype := [], qvalue := 1, order := 0 } :
            ParsedContentType).type ++ '/' ::
          ({ range := ['/'], type := [], subtype := [], qvalue := 1, order := 0 } :
            ParsedContentType).subtype := by
  exact claimC8_amended (['/'] : Str)
    { range := ['/'], type := [], subtype := [], qvalue := 1, order := 0 } (by decide)

/-- Claim C9 counterexample: for header "a/b" and available list ["c/d"],
the candidate for "c/d" matches no accepted range and is processed with
qvalue 0, which is neither the sentinel -1 nor inside [1/1000, 1]. -/
theorem claimC9_counterexample :
    (mkCandidates (sortCT (parseAccepted ("a/b").data)) [("c/d").data] 0).map
        (fun c => c.qvalue) = [0] ∧
      ¬ specQSet 0 := by
  refine ⟨by decide, ?_⟩
  norm_num [specQSet]

/-- Claim C9 (amended): every accepted range after parsing has qvalue in
{-1} ∪ [1/1000, 1]; every candidate processed during negotiation has
qvalue in {0} ∪ {-1} ∪ [1/1000, 1] (the extra 0 being the initial value
kept by candidates that match no accepted range). -/
theorem claimC9_amended (h : Str) (avail : List Str) :
    (∀ c ∈ sortCT (parseAccepted h), specQSet c.qvalue) ∧
      (∀ c ∈ mkCandidates (sortCT (parseAccepted h)) avail 0,
        c.qvalue = 0 ∨ specQSet c.qvalue) := by
  have hK : ∀ c ∈ sortCT (parseAccepted h), specQSet c.qvalue := by
    intro c hc
    obtain ⟨t, m, _, hp⟩ := collectTokens_mem (getlineSplit ',' h) 0 c (mem_sortCT.mp hc)
    exact parseToken_q t m c hp
  refine ⟨hK, ?_⟩
  intro c hc
  rw [mkCandidates_q _ avail 0 c hc]
  rcases scanAccepted_cases (sortCT (parseAccepted h)) c.type c.subtype with h1 | ⟨a, ha, h1⟩
  · exact Or.inl h1
  · right
    rw [h1]
    exact hK a ha

/-- Witness for C9 (amended): the accepted entry parsed from "a/b". -/
theorem claimC9_witness :
    specQSet ({ range := ("a/b").data, type := ("a").data, subtype := ("b").data,
                qvalue := 1, order := 0 } : ParsedContentType).qvalue := by
  exact (claimC9_amended ("a/b").data []).1
    { range := ("a/b").data, type := ("a").data, subtype := ("b").data,
      qvalue := 1, order := 0 } (by decide)

/-- Claim C10: in the final candidate ranking a rejected candidate
(sentinel -1) never precedes a candidate with quality 0 or more, and when
the top-ranked candidate is rejected, every candidate is rejected — so a
rejected content type is returned only when all valid candidates are
rejected. -/
theorem claimC10_rejection (h : Str) (avail : List Str) :
    ((sortCT (mkCandidates (sortCT (parseAccepted h)) avail 0)).Pairwise
        fun a b => a.qvalue = -1 → b.qvalue < 0) ∧
      (∀ c cs, sortCT (mkCandidates (sortCT (parseAccepted h)) avail 0) = c :: cs →
        c.qvalue = -1 →
        ∀ x ∈ sortCT (mkCandidates (sortCT (parseAccepted h)) avail 0),
          x.qvalue = -1) := by
  have hq : ∀ c ∈ mkCandidates (sortCT (parseAccepted h)) avail 0, -1 ≤ c.qvalue := by
    intro c hc
    rw [mkCandidates_q _ avail 0 c hc]
    rcases scanAccepted_cases (sortCT (parseAccepted h)) c.type c.subtype with
      h1 | ⟨a, ha, h1⟩
    · rw [h1]; norm_num
    · rw [h1]
      obtain ⟨t, m, _, hp⟩ := collectTokens_mem (getlineSplit ',' h) 0 a (mem_sortCT.mp ha)
      rcases parseToken_q t m a hp with h2 | ⟨h2, _⟩
      · rw [h2]
      · linarith
  have hpw := sortCT_pairwise_q (mkCandidates (sortCT (parseAccepted h)) avail 0)
  constructor
  · exact List.Pairwise.imp (fun hab h1 => by rw [h1] at hab; linarith) hpw
  · intro c cs hcs hc1 x hx
    have hx2 : x = c ∨ x ∈ cs := by
      rw [hcs] at hx
      exact List.mem_cons.mp hx
    have hxle : x.qvalue ≤ -1 := by
      rcases hx2 with rfl | hxc
      · exact le_of_eq hc1
      · have hp2 : List.Pairwise (fun a b => b.qvalue ≤ a.qvalue) (c :: cs) := by
          rw [← hcs]; exact hpw
        have h2 := (List.pairwise_cons.mp hp2).1 x hxc
        rw [hc1] at h2
        exact h2
    have h3 := hq x (mem_sortCT.mp hx)
    linarith

/-- Witness for C10 at header "a/b;q=0,c/d;q=0" and available list
["a/b", "c/d"]: both candidates are rejected, and so is the one the
theorem concludes about. -/
theorem claimC10_witness :
    ({ range := ("c/d").data, type := ("c").data, subtype := ("d").data,
        qvalue := -1, order := 1 } : ParsedContentType).qvalue = -1 := by
  exact (claimC10_rejection ("a/b;q=0,c/d;q=0").data [("a/b").data, ("c/d").data]).2
    { range := ("a/b").data, type := ("a").data, subtype := ("b").data,
      qvalue := -1, order := 0 }
    [{ range := ("c/d").data, type := ("c").data, subtype := ("d").data,
       qvalue := -1, order := 1 }]
    (by decide) (by decide)
    { range := ("c/d").data, type := ("c").data, subtype := ("d").data,
      qvalue := -1, order := 1 }
    (by decide)

end HttpAcceptParser
